import Mathlib

/-!
Verification of the propositional-logic parser and entailment checker.

The development below is a shallow embedding of the two source files of the
repository: `src/parser.rs` (tokens, lexer, recursive-descent parser) and
`src/main.rs` (atom collection, truth-value generation, evaluation and the
entailment loop).  Pure Rust functions become Lean functions; the mutable
token iterator of the parser becomes explicit state passing of the remaining
token list; Rust `Option::None` results and the various `panic` calls become
constructors of an explicit error type, all of which propagate the same way
they do in Rust (a panic aborts the whole parse, `None` is propagated by the
question-mark operator).
-/

/-- Token type of the lexer (`enum Token` in `src/parser.rs`). -/
inductive Token where
  | Atom (s : String)
  | Not
  | And
  | Or
  | If
  | Iff
  | Then
  | OpenParen
  | CloseParen
  deriving DecidableEq, Repr

/-- AST node type (`enum AstNode` in `src/parser.rs`). -/
inductive AstNode where
  | Atom (s : String)
  | Not (x : AstNode)
  | And (l r : AstNode)
  | Or (l r : AstNode)
  | If (l r : AstNode)
  | Iff (l r : AstNode)
  deriving DecidableEq, Repr

/-- Failure modes of the parser functions.  `noExpr` models a Rust
`Option::None` result (no expression could be started); `unexpectedThen`,
`expectedExprAfterNot`, `expectedThen` and `missingCloseParen` model the four
distinct `panic` messages in `src/parser.rs`.  `unreachableOp` models the
`unreachable` arm of `parse_binary_op` (never produced for the operator list
the program actually uses) and `fuelOut` is the fuel-exhaustion artifact of
the embedding (never produced for the fuel supplied by `parse`). -/
inductive PError where
  | noExpr
  | unexpectedThen
  | expectedExprAfterNot
  | expectedThen
  | missingCloseParen
  | unreachableOp
  | fuelOut
  deriving DecidableEq, Repr

/-- The `match op` inside the loop of `Parser::parse_binary_op` that builds
the binary AST node; `none` models the `unreachable` arm. -/
def mkBinNode : Token → AstNode → AstNode → Option AstNode
  | Token.And, l, r => some (AstNode.And l r)
  | Token.Or, l, r => some (AstNode.Or l r)
  | Token.If, l, r => some (AstNode.If l r)
  | Token.Iff, l, r => some (AstNode.Iff l r)
  | _, _, _ => none

mutual

/-- Model of `Parser::parse_primary` (`src/parser.rs` lines 42-54).  The first
argument is recursion fuel; the token list is the state of the iterator.
The Rust `self.tokens.next()` is the head pattern match; the `_ => None`
arm covers `And`, `Or`, `CloseParen` and an exhausted iterator. -/
def parse_primary : Nat → List Token → Except PError (AstNode × List Token)
  | 0, _ => Except.error PError.fuelOut
  | fuel + 1, ts =>
    match ts with
    | [] => Except.error PError.noExpr
    | Token.If :: rest => parse_conditional fuel rest
    | Token.Iff :: rest => parse_conditional fuel rest
    | Token.Atom a :: rest => Except.ok (AstNode.Atom a, rest)
    | Token.Not :: rest => parse_not fuel rest
    | Token.OpenParen :: rest => parse_parenthesized_expr fuel rest
    | Token.Then :: _ => Except.error PError.unexpectedThen
    | Token.And :: _ => Except.error PError.noExpr
    | Token.Or :: _ => Except.error PError.noExpr
    | Token.CloseParen :: _ => Except.error PError.noExpr

/-- Model of `Parser::parse_not`: a `None` from `parse_primary` becomes the
`Expected expression after NOT` panic; any panic propagates. -/
def parse_not : Nat → List Token → Except PError (AstNode × List Token)
  | 0, _ => Except.error PError.fuelOut
  | fuel + 1, ts =>
    match parse_primary fuel ts with
    | Except.ok (e, rest) => Except.ok (AstNode.Not e, rest)
    | Except.error PError.noExpr => Except.error PError.expectedExprAfterNot
    | Except.error e => Except.error e

/-- Model of `Parser::parse_conditional`: parses `cond`, requires the next token to
be `Then` (panicking otherwise), parses the consequence and always builds
an `If` node. -/
def parse_conditional : Nat → List Token → Except PError (AstNode × List Token)
  | 0, _ => Except.error PError.fuelOut
  | fuel + 1, ts =>
    match parse_expr fuel ts with
    | Except.error e => Except.error e
    | Except.ok (cond, rest) =>
      match rest with
      | Token.Then :: rest2 =>
        match parse_expr fuel rest2 with
        | Except.error e => Except.error e
        | Except.ok (cons, rest3) => Except.ok (AstNode.If cond cons, rest3)
      | _ => Except.error PError.expectedThen

/-- Model of `Parser::parse_parenthesized_expr` (`src/parser.rs` lines 103-112).
The open paren was already consumed by `parse_primary`; the function then
calls `self.tokens.next()` once more, unconditionally discarding one
further token — modelled by `ts.drop 1` — before parsing the inner
expression and checking for the closing paren. -/
def parse_parenthesized_expr : Nat → List Token → Except PError (AstNode × List Token)
  | 0, _ => Except.error PError.fuelOut
  | fuel + 1, ts =>
    match parse_expr fuel (ts.drop 1) with
    | Except.error e => Except.error e
    | Except.ok (e, rest) =>
      match rest with
      | Token.CloseParen :: rest2 => Except.ok (e, rest2)
      | _ => Except.error PError.missingCloseParen

/-- Model of `Parser::parse_expr`: a binary-operator chain over primaries with the
operator set `[And, Or]`. -/
def parse_expr : Nat → List Token → Except PError (AstNode × List Token)
  | 0, _ => Except.error PError.fuelOut
  | fuel + 1, ts => parse_binary_op fuel [Token.And, Token.Or] ts

/-- Model of `Parser::parse_binary_op` up to the start of its `while` loop: parse
the left operand with `parse_primary` (the only `parse_left` ever passed),
then enter the fold loop. -/
def parse_binary_op : Nat → List Token → List Token → Except PError (AstNode × List Token)
  | 0, _, _ => Except.error PError.fuelOut
  | fuel + 1, ops, ts =>
    match parse_primary fuel ts with
    | Except.error e => Except.error e
    | Except.ok (left, rest) => parse_bin_loop fuel ops left rest

/-- The `while let Some(op) = self.tokens.peek()` loop of
`Parser::parse_binary_op`: while the next token is in `ops`, consume it,
parse the right operand with `parse_primary`, and fold it into the
accumulated left node. -/
def parse_bin_loop : Nat → List Token → AstNode → List Token → Except PError (AstNode × List Token)
  | 0, _, _, _ => Except.error PError.fuelOut
  | fuel + 1, ops, left, ts =>
    match ts with
    | [] => Except.ok (left, [])
    | op :: rest =>
      if op ∈ ops then
        match parse_primary fuel rest with
        | Except.error e => Except.error e
        | Except.ok (right, rest2) =>
          match mkBinNode op left right with
          | some node => parse_bin_loop fuel ops node rest2
          | none => Except.error PError.unreachableOp
      else Except.ok (left, ts)

end

/-- Fuel that is always sufficient for a token list: every call in the
mutual block consumes one unit, and at most four nested calls happen per
consumed token. -/
def parseFuel (ts : List Token) : Nat := 4 * ts.length + 8

/-- Model of `Parser::parse`: runs `parse_expr` on the whole token list and returns
its AST, ignoring whatever tokens `parse_expr` left unconsumed (the Rust
function returns `self.parse_expr()` and never inspects the iterator
again). -/
def parse (ts : List Token) : Except PError AstNode :=
  (parse_expr (parseFuel ts) ts).map Prod.fst

/-- Does an AST contain an `Iff` node anywhere? -/
def hasIff : AstNode → Bool
  | AstNode.Atom _ => false
  | AstNode.Not x => hasIff x
  | AstNode.And l r => hasIff l || hasIff r
  | AstNode.Or l r => hasIff l || hasIff r
  | AstNode.If l r => hasIff l || hasIff r
  | AstNode.Iff _ _ => true

/-- ASCII alphabetic test, the `[a-zA-Z]` character class of the lexer
regex in `src/parser.rs`. -/
def isAlphaChar (c : Char) : Bool :=
  (('a' ≤ c) && (c ≤ 'z')) || (('A' ≤ c) && (c ≤ 'Z'))

/-- Word scanner modelling `re.find_iter` for the regex
`[a-zA-Z]+|not|and|or|if|iff|then|open-paren|close-paren`: the leftmost
match at an alphabetic character is the maximal alphabetic run (the first,
greedy alternative), a paren character matches itself, and every other
character is skipped.  The first argument accumulates the current run in
reverse. -/
def scanWords : List Char → List Char → List String
  | run, [] => if run.isEmpty then [] else [String.mk run.reverse]
  | run, c :: rest =>
    if isAlphaChar c then
      scanWords (c :: run) rest
    else
      (if run.isEmpty then [] else [String.mk run.reverse])
        ++ (if c = '(' then "(" :: scanWords [] rest
            else if c = ')' then ")" :: scanWords [] rest
            else scanWords [] rest)

/-- Failure modes of `lex` in `src/parser.rs`: the
`then without preceding if` panic and the
`Expected operator between atoms` panic. -/
inductive LError where
  | thenWithoutIf
  | adjacentAtoms
  deriving DecidableEq, Repr

/-- The `match mat.as_str()` loop body of `lex` (`src/parser.rs` lines
128-178), folded over the scanned words.  The two Booleans are the mutable
locals `last_token_was_atom` and `in_conditional`; note that `then` checks
`in_conditional` but never resets it. -/
def lexWords : List String → Bool → Bool → Except LError (List Token)
  | [], _, _ => Except.ok []
  | w :: rest, lastAtom, inCond =>
    if w = "not" then (lexWords rest false inCond).map (fun tl => Token.Not :: tl)
    else if w = "and" then (lexWords rest false inCond).map (fun tl => Token.And :: tl)
    else if w = "or" then (lexWords rest false inCond).map (fun tl => Token.Or :: tl)
    else if w = "if" then (lexWords rest false true).map (fun tl => Token.If :: tl)
    else if w = "iff" then (lexWords rest false true).map (fun tl => Token.Iff :: tl)
    else if w = "then" then
      if inCond then (lexWords rest false inCond).map (fun tl => Token.Then :: tl)
      else Except.error LError.thenWithoutIf
    else if w = "(" then (lexWords rest false inCond).map (fun tl => Token.OpenParen :: tl)
    else if w = ")" then (lexWords rest false inCond).map (fun tl => Token.CloseParen :: tl)
    else
      if lastAtom then Except.error LError.adjacentAtoms
      else (lexWords rest true inCond).map (fun tl => Token.Atom w :: tl)

/-- Model of `lex` (`src/parser.rs` lines 121-181): scan the input into words, then
classify them with both state flags initially false. -/
def lexString (s : String) : Except LError (List Token) :=
  lexWords (scanWords [] s.data) false false

/-- A truth assignment, modelling the Rust `HashMap<String, bool>` as an
association list (the Rust maps are only ever read through `get`, so only
the key-to-value function matters). -/
abbrev Assignment := List (String × Bool)

/-- Model of the read `truth_assignment.get(atom).unwrap_or(&false)` from `evaluate` in
`src/main.rs`. -/
def lookupBool (t : Assignment) (name : String) : Bool :=
  match List.lookup name t with
  | some b => b
  | none => false

/-- Model of `evaluate` (`src/main.rs` lines 91-110), structurally identical to the
Rust match. -/
def evaluate : AstNode → Assignment → Bool
  | AstNode.Atom a, t => lookupBool t a
  | AstNode.Not x, t => !evaluate x t
  | AstNode.And l r, t => evaluate l t && evaluate r t
  | AstNode.Or l r, t => evaluate l t || evaluate r t
  | AstNode.If l r, t => !evaluate l t || evaluate r t
  | AstNode.Iff l r, t =>
    let leftResult := evaluate l t
    let rightResult := evaluate r t
    (!leftResult || rightResult) && (leftResult || !rightResult)

/-- Model of `HashMap::insert` of a unit value, keyed by atom name: the key set
grows by `a` if absent.  The Rust iteration order of a `HashMap` is
unspecified; the model fixes first-insertion order, and every property
proved below is independent of that choice. -/
def insertAtomName (acc : List String) (a : String) : List String :=
  if a ∈ acc then acc else acc ++ [a]

/-- Model of `find_atoms` (`src/main.rs` lines 54-70), with the accumulated key set
passed explicitly. -/
def find_atoms : AstNode → List String → List String
  | AstNode.Atom a, acc => insertAtomName acc a
  | AstNode.Not x, acc => find_atoms x acc
  | AstNode.And l r, acc => find_atoms r (find_atoms l acc)
  | AstNode.Or l r, acc => find_atoms r (find_atoms l acc)
  | AstNode.If l r, acc => find_atoms r (find_atoms l acc)
  | AstNode.Iff l r, acc => find_atoms r (find_atoms l acc)

/-- The inner loop of `generate_truth_values` (`src/main.rs` lines 80-85)
for one combination value: atom at position `i` is mapped to the bit test
`(combination and (1 shifted left by i)) not equal to 0`. -/
def assign_atoms : List String → Nat → Nat → Assignment
  | [], _, _ => []
  | a :: rest, combination, i =>
    (a, (combination &&& (1 <<< i)) != 0) :: assign_atoms rest combination (i + 1)

/-- The value computed by `generate_truth_values` (`src/main.rs` lines
73-88) into the caller-allocated vector: assignment number `combination`,
for `combination` in `0 .. 2 ^ atoms.length`, maps each atom to its bit of
`combination`. -/
def generate_truth_values (atoms : List String) : List Assignment :=
  (List.range (1 <<< atoms.length)).map (fun combination => assign_atoms atoms combination 0)

/-- The atom universe built by `main` (`src/main.rs` lines 27-31):
`find_atoms` over every knowledge-base formula, then over `alpha`, all
into one shared map. -/
def kb_atoms (kb : List AstNode) (alpha : AstNode) : List String :=
  find_atoms alpha (kb.foldl (fun acc ast => find_atoms ast acc) [])

/-- The entailment loop of `main` (`src/main.rs` lines 36-44): scan the
assignments; on the first one that satisfies every knowledge-base formula
but falsifies `alpha`, set `valid` to false and break. -/
def check_valid (kb : List AstNode) (alpha : AstNode) : List Assignment → Bool
  | [] => true
  | t :: rest =>
    if (kb.all fun ast => evaluate ast t) && !evaluate alpha t then false
    else check_valid kb alpha rest

/-- The whole entailment check of `main`: collect the shared atom
universe, enumerate its truth values, and run the validity loop. -/
def entails (kb : List AstNode) (alpha : AstNode) : Bool :=
  check_valid kb alpha (generate_truth_values (kb_atoms kb alpha))

/-- Model of `HashMap::insert` on an association-list map: replace the value if the
key is present, append otherwise. -/
def insertPair : Assignment → String → Bool → Assignment
  | [], k, v => [(k, v)]
  | (k2, v2) :: rest, k, v =>
    if k2 = k then (k, v) :: rest else (k2, v2) :: insertPair rest k v

/-- The inner loop of `generate_truth_values` in its stateful form: for
each atom in order, execute `truth_values[index].insert(atom, bit)`.
Indexing a Rust `Vec` out of bounds panics, modelled by `none`; note that
for an empty atom list the loop body never runs, so no indexing occurs. -/
def write_combination : List Assignment → Nat → List String → Nat → Nat → Option (List Assignment)
  | tvs, _, [], _, _ => some tvs
  | tvs, index, a :: rest, combination, i =>
    if h : index < tvs.length then
      write_combination
        (tvs.set index (insertPair tvs[index] a ((combination &&& (1 <<< i)) != 0)))
        index rest combination (i + 1)
    else none

/-- The outer loop of `generate_truth_values` in its stateful form: one
`write_combination` per combination value, with the separate `index`
counter incremented in step. -/
def generate_truth_values_loop : List Assignment → List String → List Nat → Nat → Option (List Assignment)
  | tvs, _, [], _ => some tvs
  | tvs, atoms, combination :: rest, index =>
    match write_combination tvs index atoms combination 0 with
    | some tvs2 => generate_truth_values_loop tvs2 atoms rest (index + 1)
    | none => none

/-- Model of `generate_truth_values` as the Rust function actually runs: mutating a
caller-supplied vector `tvs`, returning `none` exactly when some
`truth_values[index]` access is out of bounds. -/
def generate_truth_values_mut (tvs : List Assignment) (atoms : List String) : Option (List Assignment) :=
  generate_truth_values_loop tvs atoms (List.range (1 <<< atoms.length)) 0


/-- Claim C1 (code bug in `parse_parenthesized_expr`): because the function
calls `next` once more after `parse_primary` already consumed the open
paren, the first token of the inner expression is silently discarded.
Consequently the token sequence of a parenthesized atom fails to parse at
all (while the atom alone parses), the tokens of the unclosed input
`(a and b` fail with the generic no-expression result rather than the
missing-closing-parenthesis panic, and the tokens of `(not a)` parse to
the wrong AST with the negation dropped. -/
theorem c1_paren_double_consume :
    parse [Token.OpenParen, Token.Atom "a", Token.CloseParen] = Except.error PError.noExpr
    ∧ parse [Token.Atom "a"] = Except.ok (AstNode.Atom "a")
    ∧ parse [Token.OpenParen, Token.Atom "a", Token.And, Token.Atom "b"]
        = Except.error PError.noExpr
    ∧ parse [Token.OpenParen, Token.Not, Token.Atom "a", Token.CloseParen]
        = Except.ok (AstNode.Atom "a")
    ∧ lexString "(a and b"
        = Except.ok [Token.OpenParen, Token.Atom "a", Token.And, Token.Atom "b"]
    ∧ lexString "(a)" = Except.ok [Token.OpenParen, Token.Atom "a", Token.CloseParen] :=
  ⟨rfl, rfl, rfl, rfl, rfl, rfl⟩

/-- Claim C3, counterexample: `[Atom a]` is a well-formed expression
(first conjunct), yet appending a further token does not make `parse`
fail — it returns the AST built from only the prefix (second conjunct). -/
theorem c3_counterexample :
    parse [Token.Atom "a"] = Except.ok (AstNode.Atom "a")
    ∧ parse [Token.Atom "a", Token.CloseParen] = Except.ok (AstNode.Atom "a") :=
  ⟨rfl, rfl⟩

/-- Claim C3, amended: `parse` performs no leftover-token check at all;
whenever `parse_expr` succeeds with a (possibly nonempty) remainder,
`parse` returns the prefix AST and ignores the remaining tokens. -/
theorem c3_amended (ts : List Token) (ast : AstNode) (rest : List Token)
    (h : parse_expr (parseFuel ts) ts = Except.ok (ast, rest)) (_hne : rest ≠ []) :
    parse ts = Except.ok ast := by
  unfold parse
  rw [h]
  rfl

/-- Witness for `c3_amended` at the concrete input `[Atom a, CloseParen]`. -/
theorem c3_amended_witness :
    parse [Token.Atom "a", Token.CloseParen] = Except.ok (AstNode.Atom "a") :=
  c3_amended [Token.Atom "a", Token.CloseParen] (AstNode.Atom "a") [Token.CloseParen]
    rfl (by decide)

/-- Claim C7: `evaluate` is compositional — each connective of the AST is
evaluated as the corresponding Boolean operation on the evaluations of its
children, with `Iff` true exactly when the two sides evaluate equal.
Totality holds by construction: `evaluate` is a structurally recursive
total function. -/
theorem c7_evaluate_compositional (x y : AstNode) (t : Assignment) :
    evaluate (AstNode.And x y) t = (evaluate x t && evaluate y t)
    ∧ evaluate (AstNode.Or x y) t = (evaluate x t || evaluate y t)
    ∧ evaluate (AstNode.Not x) t = !evaluate x t
    ∧ evaluate (AstNode.If x y) t = (!evaluate x t || evaluate y t)
    ∧ evaluate (AstNode.Iff x y) t = (evaluate x t == evaluate y t) := by
  refine ⟨rfl, rfl, rfl, rfl, ?_⟩
  simp only [evaluate]
  cases evaluate x t <;> cases evaluate y t <;> rfl

/-- Claim C8: evaluating an `Atom` whose name is absent from the
assignment yields `false` (the `unwrap_or(&false)` default), so evaluation
under an assignment over a smaller atom universe never fails. -/
theorem c8_missing_atom_false (t : Assignment) (name : String)
    (h : List.lookup name t = none) :
    evaluate (AstNode.Atom name) t = false := by
  simp only [evaluate, lookupBool, h]

/-- Witness for `c8_missing_atom_false`: atom `a` is absent from the
assignment over the universe containing only `b`. -/
theorem c8_missing_atom_false_witness :
    evaluate (AstNode.Atom "a") [("b", true)] = false :=
  c8_missing_atom_false [("b", true)] "a" rfl

/-- Every successful result of any parser function is an `Iff`-free AST;
proved for all fuel values simultaneously for the whole mutual block.
The loop component carries the invariant that its accumulated left node is
already `Iff`-free, and fixes the operator list to the one `parse_expr`
actually passes. -/
theorem noIff_fuel (fuel : Nat) :
    (∀ ts a r, parse_primary fuel ts = Except.ok (a, r) → hasIff a = false)
    ∧ (∀ ts a r, parse_not fuel ts = Except.ok (a, r) → hasIff a = false)
    ∧ (∀ ts a r, parse_conditional fuel ts = Except.ok (a, r) → hasIff a = false)
    ∧ (∀ ts a r, parse_parenthesized_expr fuel ts = Except.ok (a, r) → hasIff a = false)
    ∧ (∀ ts a r, parse_expr fuel ts = Except.ok (a, r) → hasIff a = false)
    ∧ (∀ ts a r, parse_binary_op fuel [Token.And, Token.Or] ts = Except.ok (a, r) →
        hasIff a = false)
    ∧ (∀ left ts a r, hasIff left = false →
        parse_bin_loop fuel [Token.And, Token.Or] left ts = Except.ok (a, r) →
        hasIff a = false) := by
  induction fuel with
  | zero =>
    refine ⟨?_, ?_, ?_, ?_, ?_, ?_, ?_⟩
    · intro ts a r h; simp [parse_primary] at h
    · intro ts a r h; simp [parse_not] at h
    · intro ts a r h; simp [parse_conditional] at h
    · intro ts a r h; simp [parse_parenthesized_expr] at h
    · intro ts a r h; simp [parse_expr] at h
    · intro ts a r h; simp [parse_binary_op] at h
    · intro left ts a r hl h; simp [parse_bin_loop] at h
  | succ fuel ih =>
    obtain ⟨ihP, ihN, ihC, ihPar, ihE, ihB, ihL⟩ := ih
    refine ⟨?_, ?_, ?_, ?_, ?_, ?_, ?_⟩
    · intro ts a r h
      match ts with
      | [] => simp [parse_primary] at h
      | Token.If :: rest => exact ihC rest a r h
      | Token.Iff :: rest => exact ihC rest a r h
      | Token.Atom s :: rest =>
        simp only [parse_primary, Except.ok.injEq, Prod.mk.injEq] at h
        rw [← h.1]
        rfl
      | Token.Not :: rest => exact ihN rest a r h
      | Token.OpenParen :: rest => exact ihPar rest a r h
      | Token.Then :: rest => simp [parse_primary] at h
      | Token.And :: rest => simp [parse_primary] at h
      | Token.Or :: rest => simp [parse_primary] at h
      | Token.CloseParen :: rest => simp [parse_primary] at h
    · intro ts a r h
      simp only [parse_not] at h
      split at h
      · rename_i e rest heq
        simp only [Except.ok.injEq, Prod.mk.injEq] at h
        rw [← h.1]
        exact ihP ts e rest heq
      · simp at h
      · simp at h
    · intro ts a r h
      simp only [parse_conditional] at h
      split at h
      · simp at h
      · rename_i cond rest heq
        split at h
        · rename_i rest2
          split at h
          · simp at h
          · rename_i cons rest3 heq2
            simp only [Except.ok.injEq, Prod.mk.injEq] at h
            rw [← h.1]
            show (hasIff cond || hasIff cons) = false
            rw [ihE ts cond (Token.Then :: rest2) heq, ihE rest2 cons rest3 heq2]
            rfl
        · simp at h
    · intro ts a r h
      simp only [parse_parenthesized_expr] at h
      split at h
      · simp at h
      · rename_i e rest heq
        split at h
        · rename_i rest2
          simp only [Except.ok.injEq, Prod.mk.injEq] at h
          rw [← h.1]
          exact ihE (ts.drop 1) e (Token.CloseParen :: rest2) heq
        · simp at h
    · intro ts a r h
      simp only [parse_expr] at h
      exact ihB ts a r h
    · intro ts a r h
      simp only [parse_binary_op] at h
      split at h
      · simp at h
      · rename_i left rest heq
        exact ihL left rest a r (ihP ts left rest heq) h
    · intro left ts a r hl h
      match ts with
      | [] =>
        simp only [parse_bin_loop, Except.ok.injEq, Prod.mk.injEq] at h
        rw [← h.1]
        exact hl
      | op :: rest =>
        simp only [parse_bin_loop] at h
        split at h
        · rename_i hin
          split at h
          · simp at h
          · rename_i right rest2 heq
            have hr : hasIff right = false := ihP rest right rest2 heq
            split at h
            · rename_i node heq2
              refine ihL node rest2 a r ?_ h
              have hop : op = Token.And ∨ op = Token.Or := by
                simpa using hin
              rcases hop with hop | hop <;> rw [hop] at heq2 <;>
                simp only [mkBinNode, Option.some.injEq] at heq2 <;>
                rw [← heq2] <;> show (hasIff left || hasIff right) = false <;>
                rw [hl, hr] <;> rfl
            · simp at h
        · simp only [Except.ok.injEq, Prod.mk.injEq] at h
          rw [← h.1]
          exact hl

/-- Claim C2: the parser never constructs an `Iff` node — every token
sequence it accepts yields an `Iff`-free AST, and the `if` and `iff`
tokens are handled by the very same `parse_conditional` call inside
`parse_primary`, which always builds an `If` node. -/
theorem c2_no_iff_node :
    (∀ ts ast, parse ts = Except.ok ast → hasIff ast = false)
    ∧ (∀ fuel rest, parse_primary (fuel + 1) (Token.If :: rest)
        = parse_primary (fuel + 1) (Token.Iff :: rest)) := by
  constructor
  · intro ts ast h
    unfold parse at h
    cases hp : parse_expr (parseFuel ts) ts with
    | error e => rw [hp] at h; simp [Except.map] at h
    | ok p =>
      obtain ⟨a, r⟩ := p
      rw [hp] at h
      simp only [Except.map, Except.ok.injEq] at h
      rw [← h]
      exact (noIff_fuel (parseFuel ts)).2.2.2.2.1 ts a r hp
  · intro fuel rest
    rfl

/-- Witness for `c2_no_iff_node` at the concrete accepted input
`[Atom a]`. -/
theorem c2_no_iff_node_witness : hasIff (AstNode.Atom "a") = false :=
  c2_no_iff_node.1 [Token.Atom "a"] (AstNode.Atom "a") rfl

/-- Token sequence of a flat binary chain continuing an initial atom: each
pair contributes its operator token followed by its atom token. -/
def chainTokens : List (Token × String) → List Token
  | [] => []
  | (op, b) :: rest => op :: Token.Atom b :: chainTokens rest

/-- Left fold of a flat chain into nested binary nodes in encounter
order: each step wraps the accumulated node as the left child. -/
def foldChain : AstNode → List (Token × String) → AstNode
  | acc, [] => acc
  | acc, (op, b) :: rest =>
    foldChain
      (if op = Token.And then AstNode.And acc (AstNode.Atom b)
       else AstNode.Or acc (AstNode.Atom b)) rest

theorem chainTokens_length (ps : List (Token × String)) :
    (chainTokens ps).length = 2 * ps.length := by
  induction ps with
  | nil => rfl
  | cons p rest ih =>
    obtain ⟨op, b⟩ := p
    simp [chainTokens, ih]
    omega

/-- The binary-operator loop consumes a whole `And`/`Or` chain and folds
it left-to-right onto the accumulated node, given enough fuel. -/
theorem parse_bin_loop_chain (ps : List (Token × String)) :
    ∀ (left : AstNode) (fuel : Nat),
    (∀ p ∈ ps, p.1 = Token.And ∨ p.1 = Token.Or) →
    ps.length + 1 ≤ fuel →
    parse_bin_loop fuel [Token.And, Token.Or] left (chainTokens ps) =
      Except.ok (foldChain left ps, []) := by
  induction ps with
  | nil =>
    intro left fuel _ hf
    obtain ⟨f, rfl⟩ : ∃ f, fuel = f + 1 := ⟨fuel - 1, by omega⟩
    rfl
  | cons p rest ih =>
    obtain ⟨op, b⟩ := p
    intro left fuel hops hf
    simp only [List.length_cons] at hf
    obtain ⟨f, rfl⟩ : ∃ f, fuel = f + 1 := ⟨fuel - 1, by omega⟩
    obtain ⟨g, rfl⟩ : ∃ g, f = g + 1 := ⟨f - 1, by omega⟩
    have hop : op = Token.And ∨ op = Token.Or := hops (op, b) (by simp)
    have hrest : ∀ p ∈ rest, p.1 = Token.And ∨ p.1 = Token.Or := by
      intro q hq
      exact hops q (by simp [hq])
    rcases hop with rfl | rfl
    · have step : parse_bin_loop (g + 1 + 1) [Token.And, Token.Or] left
          (chainTokens ((Token.And, b) :: rest))
          = parse_bin_loop (g + 1) [Token.And, Token.Or]
              (AstNode.And left (AstNode.Atom b)) (chainTokens rest) := by
        simp [chainTokens, parse_bin_loop, parse_primary, mkBinNode]
      rw [step, ih (AstNode.And left (AstNode.Atom b)) (g + 1) hrest (by omega)]
      simp [foldChain]
    · have step : parse_bin_loop (g + 1 + 1) [Token.And, Token.Or] left
          (chainTokens ((Token.Or, b) :: rest))
          = parse_bin_loop (g + 1) [Token.And, Token.Or]
              (AstNode.Or left (AstNode.Atom b)) (chainTokens rest) := by
        simp [chainTokens, parse_bin_loop, parse_primary, mkBinNode]
      rw [step, ih (AstNode.Or left (AstNode.Atom b)) (g + 1) hrest (by omega)]
      simp [foldChain]

/-- Running `parse_expr` on an atom followed by a flat `And`/`Or` chain returns
the left fold of the chain and consumes the whole input. -/
theorem parse_expr_chain (a : String) (ps : List (Token × String)) (fuel : Nat)
    (hops : ∀ p ∈ ps, p.1 = Token.And ∨ p.1 = Token.Or)
    (hf : 2 * ps.length + 4 ≤ fuel) :
    parse_expr fuel (Token.Atom a :: chainTokens ps)
      = Except.ok (foldChain (AstNode.Atom a) ps, []) := by
  obtain ⟨f, rfl⟩ : ∃ f, fuel = f + 1 := ⟨fuel - 1, by omega⟩
  obtain ⟨g, rfl⟩ : ∃ g, f = g + 1 := ⟨f - 1, by omega⟩
  obtain ⟨k, rfl⟩ : ∃ k, g = k + 1 := ⟨g - 1, by omega⟩
  have h1 : parse_expr (k + 1 + 1 + 1) (Token.Atom a :: chainTokens ps)
      = parse_bin_loop (k + 1) [Token.And, Token.Or] (AstNode.Atom a) (chainTokens ps) := by
    simp [parse_expr, parse_binary_op, parse_primary]
  rw [h1]
  exact parse_bin_loop_chain ps (AstNode.Atom a) (k + 1) hops (by omega)

/-- Claim C9: `And` and `Or` share the single precedence level of
`parse_expr`: a flat chain of atoms connected by any mix of the two
operators is folded into nested binary nodes left-to-right in encounter
order; in particular the tokens of `a and b or c` parse to
`Or(And(a, b), c)`. -/
theorem c9_and_or_left_fold :
    (∀ (a : String) (ps : List (Token × String)),
      (∀ p ∈ ps, p.1 = Token.And ∨ p.1 = Token.Or) →
      parse (Token.Atom a :: chainTokens ps)
        = Except.ok (foldChain (AstNode.Atom a) ps))
    ∧ parse [Token.Atom "a", Token.And, Token.Atom "b", Token.Or, Token.Atom "c"]
        = Except.ok (AstNode.Or (AstNode.And (AstNode.Atom "a") (AstNode.Atom "b"))
            (AstNode.Atom "c")) := by
  constructor
  · intro a ps hops
    have hf : 2 * ps.length + 4 ≤ parseFuel (Token.Atom a :: chainTokens ps) := by
      simp [parseFuel, chainTokens_length]
      omega
    unfold parse
    rw [parse_expr_chain a ps _ hops hf]
    rfl
  · rfl

/-- Witness for `c9_and_or_left_fold` on the concrete one-step chain
`a and b`. -/
theorem c9_and_or_left_fold_witness :
    parse [Token.Atom "a", Token.And, Token.Atom "b"]
      = Except.ok (AstNode.And (AstNode.Atom "a") (AstNode.Atom "b")) :=
  c9_and_or_left_fold.1 "a" [(Token.And, "b")] (by decide)

/-- Success test for an `Except` result. -/
def isOkE {ε α : Type} : Except ε α → Bool
  | Except.ok _ => true
  | Except.error _ => false

theorem isOkE_map {ε α β : Type} (f : α → β) (e : Except ε α) :
    isOkE (e.map f) = isOkE e := by
  cases e <;> rfl

/-- Claim C4, counterexample: the lexer accepts a second `then` with no
new intervening `if`: the `in_conditional` flag set by the single `if` is
never cleared, so `if a then b then c` lexes successfully, while the
claim states this input fails. -/
theorem c4_counterexample :
    lexString "if a then b then c"
      = Except.ok [Token.If, Token.Atom "a", Token.Then, Token.Atom "b",
          Token.Then, Token.Atom "c"] := rfl

/-- Claim C4, amended: `lex` accepts a `then` token exactly when an `if`
or `iff` was lexed earlier in the same call, regardless of how many
`then` tokens already occurred (the flag is never cleared): with no `if`
or `iff` anywhere in the input, any word list containing `then` fails to
lex, `then a` fails with the then-without-if error, and
`if a then b then c` lexes successfully. -/
theorem c4_amended :
    (∀ ws : List String, "if" ∉ ws → "iff" ∉ ws → "then" ∈ ws →
      ∀ lastAtom : Bool, isOkE (lexWords ws lastAtom false) = false)
    ∧ lexString "then a" = Except.error LError.thenWithoutIf
    ∧ lexString "if a then b then c"
        = Except.ok [Token.If, Token.Atom "a", Token.Then, Token.Atom "b",
            Token.Then, Token.Atom "c"] := by
  refine ⟨?_, rfl, rfl⟩
  intro ws
  induction ws with
  | nil =>
    intro _ _ h
    simp at h
  | cons w rest ih =>
    intro hif hiff hthen lastAtom
    simp only [List.mem_cons, not_or] at hif hiff
    obtain ⟨hwif, hif2⟩ := hif
    obtain ⟨hwiff, hiff2⟩ := hiff
    have hmem : ∀ h : w ≠ "then", "then" ∈ rest := by
      intro h
      rcases List.mem_cons.mp hthen with h2 | h2
      · exact absurd h2.symm h
      · exact h2
    simp only [lexWords]
    split_ifs with h1 h2 h3 h4 h5 h6 hF h8 h9 h10
    · rw [isOkE_map]
      exact ih hif2 hiff2 (hmem (by rw [h1]; decide)) false
    · rw [isOkE_map]
      exact ih hif2 hiff2 (hmem (by rw [h2]; decide)) false
    · rw [isOkE_map]
      exact ih hif2 hiff2 (hmem (by rw [h3]; decide)) false
    · exact absurd h4.symm hwif
    · exact absurd h5.symm hwiff
    · exact hF.elim
    · rfl
    · rw [isOkE_map]
      exact ih hif2 hiff2 (hmem (by rw [h8]; decide)) false
    · rw [isOkE_map]
      exact ih hif2 hiff2 (hmem (by rw [h9]; decide)) false
    · rfl
    · rw [isOkE_map]
      exact ih hif2 hiff2 (hmem h6) true

/-- Witness for `c4_amended` at the concrete word list containing only
`then`. -/
theorem c4_amended_witness : isOkE (lexWords ["then"] false false) = false :=
  c4_amended.1 ["then"] (by decide) (by decide) (by decide) false

/-- The entailment loop returns true exactly when every scanned
assignment satisfying all knowledge-base formulas also satisfies
`alpha`. -/
theorem check_valid_iff (kb : List AstNode) (alpha : AstNode) (l : List Assignment) :
    check_valid kb alpha l = true ↔
      ∀ t ∈ l, (kb.all fun ast => evaluate ast t) = true → evaluate alpha t = true := by
  induction l with
  | nil => simp [check_valid]
  | cons t rest ih =>
    simp only [check_valid]
    split_ifs with h
    · simp only [Bool.and_eq_true, Bool.not_eq_true'] at h
      constructor
      · intro hf
        exact absurd hf (by decide)
      · intro hall
        have h1 := hall t (List.mem_cons_self t rest) h.1
        rw [h1] at h
        exact absurd h.2 (by decide)
    · simp only [Bool.and_eq_true, Bool.not_eq_true', not_and, Bool.not_eq_false] at h
      rw [ih]
      constructor
      · intro hrest s hs halls
        rcases List.mem_cons.mp hs with rfl | hs2
        · exact h halls
        · exact hrest s hs2 halls
      · intro hall s hs halls
        exact hall s (List.mem_cons_of_mem _ hs) halls

/-- Claim C5: the entailment check of `main` returns true iff, over the
enumerated assignments for the union of the atoms of every
knowledge-base formula and of `alpha`, every assignment making all
knowledge-base formulas true also makes `alpha` true (assignments
falsifying some knowledge-base formula are skipped); in particular for
the knowledge base `[a or b]` and `alpha = a` it returns false. -/
theorem c5_entailment (kb : List AstNode) (alpha : AstNode) :
    (entails kb alpha = true ↔
      ∀ t ∈ generate_truth_values (kb_atoms kb alpha),
        (∀ f ∈ kb, evaluate f t = true) → evaluate alpha t = true)
    ∧ entails [AstNode.Or (AstNode.Atom "a") (AstNode.Atom "b")] (AstNode.Atom "a") = false := by
  refine ⟨?_, rfl⟩
  unfold entails
  rw [check_valid_iff]
  simp only [List.all_eq_true]

/-- Witness for `c5_entailment` at the concrete knowledge base `[a or b]`
and query `a`. -/
theorem c5_entailment_witness :
    entails [AstNode.Or (AstNode.Atom "a") (AstNode.Atom "b")] (AstNode.Atom "a") = false :=
  (c5_entailment [AstNode.Or (AstNode.Atom "a") (AstNode.Atom "b")] (AstNode.Atom "a")).2

/-- The Rust bit test `(combination and (1 shifted left by i)) not equal
to 0` is exactly `Nat.testBit`. -/
theorem bitand_eq_testBit (c i : Nat) : ((c &&& (1 <<< i)) != 0) = c.testBit i := by
  rw [Nat.one_shiftLeft, Nat.and_two_pow]
  cases h : c.testBit i
  · simp
  · have hp : (2 : Nat) ^ i ≠ 0 := (Nat.two_pow_pos i).ne'
    simp [hp]

/-- The key list of one generated assignment is the atom list itself, in
order. -/
theorem assign_atoms_keys (atoms : List String) (c i : Nat) :
    (assign_atoms atoms c i).map Prod.fst = atoms := by
  induction atoms generalizing i with
  | nil => rfl
  | cons a rest ih => simp [assign_atoms, ih]

/-- Looking up the atom at position `k` in a generated assignment yields
the bit at position `i + k` of the combination, provided the atoms are
distinct. -/
theorem assign_atoms_lookup (atoms : List String) (hnd : atoms.Nodup) (c i k : Nat)
    (hk : k < atoms.length) :
    lookupBool (assign_atoms atoms c i) atoms[k] = ((c &&& (1 <<< (i + k))) != 0) := by
  induction atoms generalizing i k with
  | nil => simp at hk
  | cons a rest ih =>
    rw [List.nodup_cons] at hnd
    match k with
    | 0 =>
      simp [assign_atoms, lookupBool, List.lookup]
    | k + 1 =>
      have hk2 : k < rest.length := by
        simpa using hk
      have hne : (rest[k] == a) = false := by
        have hmem : rest[k] ∈ rest := List.getElem_mem hk2
        have : rest[k] ≠ a := fun h => hnd.1 (h ▸ hmem)
        simpa using this
      simp only [List.getElem_cons_succ, assign_atoms, lookupBool, List.lookup, hne]
      have heq := ih hnd.2 (i + 1) k hk2
      simp only [lookupBool] at heq
      rw [show i + (k + 1) = i + 1 + k from by omega]
      exact heq

/-- Indexing the generated assignment list at a combination value in
range yields the assignment built from that combination. -/
theorem generate_getD (atoms : List String) (c : Nat) (hc : c < 2 ^ atoms.length) :
    (generate_truth_values atoms).getD c [] = assign_atoms atoms c 0 := by
  unfold generate_truth_values
  rw [List.getD_eq_getElem?_getD, List.getElem?_map, List.getElem?_range]
  · rfl
  · rwa [Nat.one_shiftLeft]

/-- Two distinct combination values below `2 ^ n` differ at some bit
position below `n`. -/
theorem testBit_ne_below (i j n : Nat) (hi : i < 2 ^ n) (hj : j < 2 ^ n) (hij : i ≠ j) :
    ∃ k, k < n ∧ i.testBit k ≠ j.testBit k := by
  by_contra h
  push_neg at h
  apply hij
  apply Nat.eq_of_testBit_eq
  intro k
  by_cases hk : k < n
  · exact h k hk
  · have h2n : (2 : Nat) ^ n ≤ 2 ^ k := Nat.pow_le_pow_right (by omega) (by omega)
    rw [Nat.testBit_lt_two_pow (Nat.lt_of_lt_of_le hi h2n),
      Nat.testBit_lt_two_pow (Nat.lt_of_lt_of_le hj h2n)]

/-- Claim C6: for a distinct atom list of length `n` the enumerator
produces exactly `2 ^ n` assignments; each is keyed by exactly those
atoms (in one fixed order shared by the whole run); the atom at position
`k` of assignment number `c` is true iff bit `k` of `c` is set; any two
assignments with distinct combination numbers disagree on some atom; and
the empty atom list yields exactly one empty assignment. -/
theorem c6_generate_truth_values (atoms : List String) (hnd : atoms.Nodup) :
    ((generate_truth_values atoms).length = 2 ^ atoms.length)
    ∧ (∀ t ∈ generate_truth_values atoms, t.map Prod.fst = atoms)
    ∧ (∀ c, c < 2 ^ atoms.length → ∀ (k : Nat) (hk : k < atoms.length),
        lookupBool ((generate_truth_values atoms).getD c []) atoms[k] = c.testBit k)
    ∧ (∀ i j, i < 2 ^ atoms.length → j < 2 ^ atoms.length → i ≠ j →
        ∃ (k : Nat) (hk : k < atoms.length),
          lookupBool ((generate_truth_values atoms).getD i []) atoms[k]
            ≠ lookupBool ((generate_truth_values atoms).getD j []) atoms[k])
    ∧ generate_truth_values [] = [[]] := by
  refine ⟨?_, ?_, ?_, ?_, rfl⟩
  · simp [generate_truth_values, Nat.one_shiftLeft]
  · intro t ht
    simp only [generate_truth_values, List.mem_map] at ht
    obtain ⟨c, _, rfl⟩ := ht
    exact assign_atoms_keys atoms c 0
  · intro c hc k hk
    rw [generate_getD atoms c hc, assign_atoms_lookup atoms hnd c 0 k hk]
    simp only [Nat.zero_add, bitand_eq_testBit]
  · intro i j hi hj hij
    obtain ⟨k, hk, hne⟩ := testBit_ne_below i j atoms.length hi hj hij
    refine ⟨k, hk, ?_⟩
    rw [generate_getD atoms i hi, generate_getD atoms j hj,
      assign_atoms_lookup atoms hnd i 0 k hk, assign_atoms_lookup atoms hnd j 0 k hk]
    simp only [Nat.zero_add, bitand_eq_testBit]
    exact hne

/-- Witness for `c6_generate_truth_values` at the two-atom universe. -/
theorem c6_generate_truth_values_witness :
    (generate_truth_values ["a", "b"]).length = 2 ^ 2 :=
  (c6_generate_truth_values ["a", "b"] (by decide)).1

/-- If the shared index is in bounds, the inner write loop succeeds and
preserves the vector length. -/
theorem write_combination_some (atoms : List String) :
    ∀ (tvs : List Assignment) (index c i : Nat), index < tvs.length →
    ∃ tvs2, write_combination tvs index atoms c i = some tvs2 ∧ tvs2.length = tvs.length := by
  induction atoms with
  | nil =>
    intro tvs index c i _
    exact ⟨tvs, rfl, rfl⟩
  | cons a rest ih =>
    intro tvs index c i h
    simp only [write_combination]
    rw [dif_pos h]
    have h2 : index < (tvs.set index
        (insertPair tvs[index] a ((c &&& (1 <<< i)) != 0))).length := by
      simpa using h
    obtain ⟨tvs2, heq, hlen⟩ := ih _ index c (i + 1) h2
    refine ⟨tvs2, heq, ?_⟩
    rw [hlen]
    simp

/-- With a nonempty atom list, an out-of-bounds index makes the inner
write loop fail at its first vector access. -/
theorem write_combination_none (atoms : List String) (ha : atoms ≠ [])
    (tvs : List Assignment) (index c i : Nat) (h : ¬ index < tvs.length) :
    write_combination tvs index atoms c i = none := by
  match atoms, ha with
  | a :: rest, _ =>
    simp only [write_combination]
    rw [dif_neg h]

/-- The outer loop succeeds whenever the vector has room for every index
it will touch. -/
theorem loop_some (atoms : List String) (combos : List Nat) :
    ∀ (tvs : List Assignment) (index : Nat), index + combos.length ≤ tvs.length →
    (generate_truth_values_loop tvs atoms combos index).isSome = true := by
  induction combos with
  | nil =>
    intro tvs index _
    rfl
  | cons c rest ih =>
    intro tvs index h
    simp only [List.length_cons] at h
    have hidx : index < tvs.length := by omega
    simp only [generate_truth_values_loop]
    obtain ⟨tvs2, heq, hlen⟩ := write_combination_some atoms tvs index c 0 hidx
    rw [heq]
    exact ih tvs2 (index + 1) (by rw [hlen]; omega)

/-- With an empty atom list the inner loop body never runs, so no vector
access happens and the outer loop succeeds on any vector. -/
theorem loop_empty_atoms (combos : List Nat) :
    ∀ (tvs : List Assignment) (index : Nat),
    generate_truth_values_loop tvs [] combos index = some tvs := by
  induction combos with
  | nil =>
    intro tvs index
    rfl
  | cons c rest ih =>
    intro tvs index
    simp only [generate_truth_values_loop, write_combination]
    exact ih tvs (index + 1)

/-- With a nonempty atom list, the outer loop fails as soon as the
running index reaches the vector length. -/
theorem loop_none (atoms : List String) (ha : atoms ≠ []) (combos : List Nat) :
    ∀ (tvs : List Assignment) (index : Nat), index ≤ tvs.length →
    tvs.length < index + combos.length →
    generate_truth_values_loop tvs atoms combos index = none := by
  induction combos with
  | nil =>
    intro tvs index h1 h2
    simp only [List.length_nil] at h2
    exact absurd h2 (by omega)
  | cons c rest ih =>
    intro tvs index h1 h2
    simp only [List.length_cons] at h2
    simp only [generate_truth_values_loop]
    by_cases hidx : index < tvs.length
    · obtain ⟨tvs2, heq, hlen⟩ := write_combination_some atoms tvs index c 0 hidx
      rw [heq]
      exact ih tvs2 (index + 1) (by rw [hlen]; omega) (by rw [hlen]; omega)
    · rw [write_combination_none atoms ha tvs index c 0 hidx]

/-- Claim C10, counterexample to the exactly-when part: for the empty
atom set the inner loop body never executes, so the indexing is vacuously
in bounds even for a vector with fewer than `2 ^ 0 = 1` entries — the
run succeeds on the empty vector. -/
theorem c10_counterexample :
    (generate_truth_values_mut [] []).isSome = true
    ∧ ([] : List Assignment).length < 2 ^ ([] : List String).length :=
  ⟨rfl, by decide⟩

/-- Claim C10, amended: `generate_truth_values` writes
`truth_values[index]` for every combination index and every atom, so it
stays in bounds whenever the caller supplies at least `2 ^ |atoms|`
entries; for a nonempty atom list a shorter vector is an out-of-bounds
access (for the empty atom list no access happens at all); and under the
exact preallocation `main` performs (`1 <<< atoms.len()` empty maps) no
out-of-bounds access occurs. -/
theorem c10_amended :
    (∀ (tvs : List Assignment) (atoms : List String), 2 ^ atoms.length ≤ tvs.length →
      (generate_truth_values_mut tvs atoms).isSome = true)
    ∧ (∀ (tvs : List Assignment) (atoms : List String), atoms ≠ [] →
        tvs.length < 2 ^ atoms.length →
        generate_truth_values_mut tvs atoms = none)
    ∧ (∀ atoms : List String,
        (generate_truth_values_mut
          (List.replicate (1 <<< atoms.length) ([] : Assignment)) atoms).isSome = true) := by
  refine ⟨?_, ?_, ?_⟩
  · intro tvs atoms h
    unfold generate_truth_values_mut
    refine loop_some atoms _ tvs 0 ?_
    simp only [List.length_range, Nat.one_shiftLeft, Nat.zero_add]
    omega
  · intro tvs atoms ha h
    unfold generate_truth_values_mut
    refine loop_none atoms ha _ tvs 0 (by omega) ?_
    simp only [List.length_range, Nat.one_shiftLeft]
    omega
  · intro atoms
    unfold generate_truth_values_mut
    refine loop_some atoms _ _ 0 ?_
    simp [Nat.one_shiftLeft]

/-- Witness for `c10_amended`: the one-atom universe with an empty vector
overflows, and with the preallocated vector of length two succeeds. -/
theorem c10_amended_witness :
    generate_truth_values_mut [] ["a"] = none :=
  c10_amended.2.1 [] ["a"] (by decide) (by decide)
